import Mathlib

/-!
Verification of the myco_chess_engine ML data-preparation core.

This file gives a shallow embedding of the repository's Python sources
(`src/ml/board_to_np_array.py`, `src/ml/fen_processing.py`,
`src/ml/position_data.py`, `src/ml/read_pgn.py`, `src/ml/training.py`)
and proves or refutes the specification's claims about them.

Numpy arrays are modelled as nested lists of integers.  A numpy write
`a[i, j, k] = v` is modelled by `set3`; numpy's negative-index wrapping and
out-of-range `IndexError` are modelled by `npIdx`.  Python's
`ValueError`/`IndexError` raising functions are modelled with `Except`.
-/

/-! ### List update helper (models an in-place numpy write at one index) -/

/-- Replace the `n`-th element of `l` by `f` applied to it; out of range is a
no-op (all in-file uses are guarded so that in-range matches the Python). -/
def setNthF : List α → ℕ → (α → α) → List α
  | [], _, _ => []
  | x :: xs, 0, f => f x :: xs
  | x :: xs, n+1, f => x :: setNthF xs n f

theorem length_setNthF (l : List α) (n : ℕ) (f : α → α) :
    (setNthF l n f).length = l.length := by
  induction l generalizing n with
  | nil => rfl
  | cons x xs ih => cases n <;> simp [setNthF, ih]

theorem getD_setNthF_ne (l : List α) (n m : ℕ) (f : α → α) (d : α) (h : n ≠ m) :
    (setNthF l n f).getD m d = l.getD m d := by
  induction l generalizing n m with
  | nil => rfl
  | cons x xs ih =>
    cases n with
    | zero => cases m with
      | zero => exact absurd rfl h
      | succ m => rfl
    | succ n => cases m with
      | zero => rfl
      | succ m => exact ih n m (fun e => h (congrArg Nat.succ e))

theorem getD_setNthF_self (l : List α) (n : ℕ) (f : α → α) (d : α) (h : n < l.length) :
    (setNthF l n f).getD n d = f (l.getD n d) := by
  induction l generalizing n with
  | nil => simp at h
  | cons x xs ih =>
    cases n with
    | zero => rfl
    | succ n => exact ih n (by simpa using h)

theorem setNthF_oob (l : List α) (n : ℕ) (f : α → α) (h : l.length ≤ n) :
    setNthF l n f = l := by
  induction l generalizing n with
  | nil => rfl
  | cons x xs ih =>
    cases n with
    | zero => simp at h
    | succ n => simp [setNthF]; exact ih n (by simpa using h)

theorem mem_setNthF (l : List α) (n : ℕ) (f : α → α) (P : α → Prop)
    (hl : ∀ x ∈ l, P x) (hf : ∀ x, P x → P (f x)) :
    ∀ x ∈ setNthF l n f, P x := by
  induction l generalizing n with
  | nil => intro x hx; simp [setNthF] at hx
  | cons y ys ih =>
    intro x hx
    cases n with
    | zero =>
      rcases (List.mem_cons).1 hx with h | h
      · exact h ▸ hf y (hl y (List.mem_cons_self _ _))
      · exact hl x (List.mem_cons_of_mem _ h)
    | succ n =>
      rcases (List.mem_cons).1 hx with h | h
      · exact h ▸ hl y (List.mem_cons_self _ _)
      · exact ih n (fun z hz => hl z (List.mem_cons_of_mem _ hz)) x h

/-! ### Tensors: `np.ndarray` of shape 7×8×8 as nested integer lists -/

abbrev Row := List ℤ
abbrev Plane := List Row
abbrev Tensor := List Plane

/-- Models `np.zeros((7, 8, 8))`. -/
def zeros3 : Tensor := List.replicate 7 (List.replicate 8 (List.replicate 8 0))

/-- Models `np.zeros((8, 8))` — one all-zero plane. -/
def zeroPlane : Plane := List.replicate 8 (List.replicate 8 0)

/-- Models the write `t[p, r, c] = v`. -/
def set3 (t : Tensor) (p r c : ℕ) (v : ℤ) : Tensor :=
  setNthF t p (fun pl => setNthF pl r (fun row => setNthF row c (fun _ => v)))

/-- Models the write `pl[r, c] = v` on a single plane. -/
def set2 (pl : Plane) (r c : ℕ) (v : ℤ) : Plane :=
  setNthF pl r (fun row => setNthF row c (fun _ => v))

/-- Read `t[p]` (a whole plane). -/
def getPlane (t : Tensor) (p : ℕ) : Plane := t.getD p []

/-- Read `t[p, r, c]`. -/
def getv (t : Tensor) (p r c : ℕ) : ℤ := ((t.getD p []).getD r []).getD c 0

/-- Models `np.flip(t, axis=1)`: reverse the rank axis of every plane. -/
def flipRanks (t : Tensor) : Tensor := t.map List.reverse

/-- Negate every entry of the first `n` planes (`t[:n] *= -1`). -/
def negFirst : ℕ → Tensor → Tensor
  | 0, t => t
  | _, [] => []
  | n+1, p :: ps => p.map (fun row => row.map (fun v => -v)) :: negFirst n ps

/-- Models `t[:6] *= -1`: negate planes 0–5, leave plane 6 untouched. -/
def negatePieces (t : Tensor) : Tensor := negFirst 6 t

/-- Numpy index resolution: `0 ≤ i < n` is direct, `-n ≤ i < 0` wraps, the
rest raises `IndexError`. -/
def npIdx (i : ℤ) (n : ℕ) : Except String ℕ :=
  if 0 ≤ i ∧ i < (n : ℤ) then .ok i.toNat
  else if -(n : ℤ) ≤ i ∧ i < 0 then .ok (i + n).toNat
  else .error "IndexError"

/-- Shape predicate: the tensor is 7 planes of 8 rows of 8 entries. -/
def IsShape788 (t : Tensor) : Prop :=
  t.length = 7 ∧ ∀ p ∈ t, p.length = 8 ∧ ∀ r ∈ p, r.length = 8

/-! ### Chess board model (the subset of a `python-chess` `Board` the code reads) -/

inductive PieceColor | white | black
deriving DecidableEq, Repr

inductive PieceType | pawn | knight | bishop | rook | queen | king
deriving DecidableEq, Repr

structure ChessPiece where
  pieceType : PieceType
  color : PieceColor
deriving DecidableEq, Repr

/-- The fields of a `python-chess` board that `board_to_np_array` reads:
`board.piece_map()` (square ↦ piece, squares 0–63, a1 = 0, h8 = 63),
`board.turn` and `board.ep_square`. -/
structure Board where
  pieces : List (Fin 64 × ChessPiece)
  turn : PieceColor
  ep_square : Option (Fin 64)

/-- The `piece_map` dictionary of `board_to_np_array.py` (lines 13–20):
pawn→0, rook→1, knight→2, bishop→3, queen→4, king→5. -/
def pieceLayer : PieceType → ℕ
  | .pawn => 0
  | .rook => 1
  | .knight => 2
  | .bishop => 3
  | .queen => 4
  | .king => 5

/-- Steps 1–3 of `board_to_np_array`: zero-init, populate piece planes from
`board.piece_map()` with `divmod(square, 8)`, then mark the en-passant
square on plane 6. -/
def boardRaw (b : Board) : Tensor :=
  let a := b.pieces.foldl
    (fun t sp =>
      set3 t (pieceLayer sp.2.pieceType) ((sp.1 : ℕ) / 8) ((sp.1 : ℕ) % 8)
        (if sp.2.color = PieceColor.white then 1 else -1))
    zeros3
  match b.ep_square with
  | some sq => set3 a 6 ((sq : ℕ) / 8) ((sq : ℕ) % 8) (-1)
  | none => a

/-- Translation of `board_to_np_array` (board_to_np_array.py): populate, flip,
and if `board.turn == chess.BLACK` flip again and negate planes 0–5. -/
def board_to_np_array (b : Board) : Tensor :=
  let a := flipRanks (boardRaw b)
  if b.turn = PieceColor.black then negatePieces (flipRanks a) else a

/-- The absolute-color encoding: the value of `board_array` just before the
`board.turn == chess.BLACK` branch (equivalently, the encoder's output with
White to move). -/
def board_abs (b : Board) : Tensor := flipRanks (boardRaw b)

deriving instance DecidableEq for Except

/-! ### FEN string handling

Python's `str.split(sep)` with an explicit one-character separator:
`"".split(' ') = ['']`, consecutive separators produce empty fields. -/

def splitOnChar (sep : Char) : List Char → List (List Char)
  | [] => [[]]
  | c :: rest =>
    let r := splitOnChar sep rest
    if c = sep then [] :: r
    else match r with
      | g :: gs => (c :: g) :: gs
      | [] => [[c]]

/-- Python `int(ch)` for a digit character. -/
def digitVal (ch : Char) : ℕ := ch.toNat - '0'.toNat

/-- The `piece_to_index` dictionary of `fen_processing.py` (lines 11–14):
P/p→0, N/n→1, B/b→2, R/r→3, Q/q→4, K/k→5; anything else is absent. -/
def pieceToIndexCompact (ch : Char) : Option ℕ :=
  if ch = 'P' ∨ ch = 'p' then some 0
  else if ch = 'N' ∨ ch = 'n' then some 1
  else if ch = 'B' ∨ ch = 'b' then some 2
  else if ch = 'R' ∨ ch = 'r' then some 3
  else if ch = 'Q' ∨ ch = 'q' then some 4
  else if ch = 'K' ∨ ch = 'k' then some 5
  else none

/-- The inner character loop of `fen_to_cnn_input_compact`: digits advance
`col_idx`, recognized piece letters write `+1`/`-1` and advance, any other
character does nothing at all.  A write outside the 8×8 grid is a numpy
`IndexError`. -/
def rankLoopCompact (t : Tensor) (row col : ℕ) : List Char → Except String (Tensor × ℕ)
  | [] => .ok (t, col)
  | ch :: rest =>
    if ch.isDigit then rankLoopCompact t row (col + digitVal ch) rest
    else match pieceToIndexCompact ch with
      | some plane =>
        if row < 8 ∧ col < 8 then
          rankLoopCompact (set3 t plane row col (if ch.isUpper then 1 else -1)) row (col + 1) rest
        else .error "IndexError"
      | none => rankLoopCompact t row col rest

/-- The outer `enumerate(board_fen.split('/'))` loop of
`fen_to_cnn_input_compact`: `col_idx` restarts at 0 for each rank, `row_idx`
counts ranks from the top. -/
def placeRanksCompact (t : Tensor) (row : ℕ) : List (List Char) → Except String Tensor
  | [] => .ok t
  | r :: rs =>
    match rankLoopCompact t row 0 r with
    | .ok (t', _) => placeRanksCompact t' (row + 1) rs
    | .error e => .error e

/-- The en-passant step of `fen_to_cnn_input_compact` (lines 28–31):
`file = ord(ep[0]) - ord('a')`, `rank = int(ep[1]) - 1`,
`cnn_input[6, rank, file] = -1`. -/
def epApplyCompact (t : Tensor) (ep : List Char) : Except String Tensor :=
  if ep = ['-'] then .ok t
  else match ep with
    | c0 :: c1 :: _ =>
      if c1.isDigit then
        match npIdx ((digitVal c1 : ℤ) - 1) 8, npIdx ((c0.toNat : ℤ) - ('a'.toNat : ℤ)) 8 with
        | .ok r, .ok f => .ok (set3 t 6 r f (-1))
        | _, _ => .error "IndexError"
      else .error "ValueError"
    | _ => .error "IndexError"

/-- Core of `fen_to_cnn_input_compact` after field splitting: build the piece planes,
mark the en-passant square, and if the turn field is `b` flip the rank axis
and negate planes 0–5. -/
def compactCore (ranks : List (List Char)) (turn ep : List Char) : Except String Tensor :=
  match placeRanksCompact zeros3 0 ranks with
  | .error e => .error e
  | .ok a =>
    match epApplyCompact a ep with
    | .error e => .error e
    | .ok a => if turn = ['b'] then .ok (negatePieces (flipRanks a)) else .ok a

/-- Translation of `fen_to_cnn_input_compact` (fen_processing.py): split the FEN into its six
fields (`ValueError` otherwise, from tuple unpacking), then run the core. -/
def fen_to_cnn_input_compact (fen : String) : Except String Tensor :=
  match splitOnChar ' ' fen.toList with
  | [bf, turn, _, ep, _, _] => compactCore (splitOnChar '/' bf) turn ep
  | _ => .error "ValueError: unpack"

/-! ### The sparse FEN encoder (`fen_to_sparse_array` in training.py) -/

/-- The `piece_to_index` dictionary of `training.py` (lines 18–21):
white pieces P N B R Q K → 0–5, black pieces p n b r q k → 6–11. -/
def pieceToIndexSparse (ch : Char) : Option ℕ :=
  if ch = 'P' then some 0 else if ch = 'N' then some 1
  else if ch = 'B' then some 2 else if ch = 'R' then some 3
  else if ch = 'Q' then some 4 else if ch = 'K' then some 5
  else if ch = 'p' then some 6 else if ch = 'n' then some 7
  else if ch = 'b' then some 8 else if ch = 'r' then some 9
  else if ch = 'q' then some 10 else if ch = 'k' then some 11
  else none

/-- The inner character loop of `fen_to_sparse_array`: digits advance
`square_index`, pieces write a 1 (a write at index ≥ 64 is a numpy
`IndexError`), and an unrecognized character raises `ValueError`. -/
def sparseChars (planes : Plane) (sqIdx : ℕ) : List Char → Except String (Plane × ℕ)
  | [] => .ok (planes, sqIdx)
  | ch :: rest =>
    if ch.isDigit then sparseChars planes (sqIdx + digitVal ch) rest
    else match pieceToIndexSparse ch with
      | some plane =>
        if sqIdx < 64 then sparseChars (set2 planes plane sqIdx 1) (sqIdx + 1) rest
        else .error "IndexError"
      | none => .error "ValueError: Invalid character in FEN"

/-- The outer `for rank in squares` loop of `fen_to_sparse_array`:
`square_index` is NOT reset between ranks. -/
def sparseRanksLoop (planes : Plane) (sqIdx : ℕ) : List (List Char) → Except String (Plane × ℕ)
  | [] => .ok (planes, sqIdx)
  | r :: rs =>
    match sparseChars planes sqIdx r with
    | .ok (planes', sqIdx') => sparseRanksLoop planes' sqIdx' rs
    | .error e => .error e

/-- The 64-entry en-passant one-hot of `fen_to_sparse_array`
(`en_passant_index = rank * 8 + file`). -/
def epArraySparse (ep : List Char) : Except String Row :=
  let zero : Row := List.replicate 64 0
  if ep = ['-'] then .ok zero
  else match ep with
    | c0 :: c1 :: _ =>
      if c1.isDigit then
        match npIdx (((digitVal c1 : ℤ) - 1) * 8 + ((c0.toNat : ℤ) - ('a'.toNat : ℤ))) 64 with
        | .ok i => .ok (setNthF zero i (fun _ => 1))
        | .error e => .error e
      else .error "ValueError"
    | _ => .error "IndexError"

/-- Core of `fen_to_sparse_array` after field splitting: 13×64 zero planes populated
from the placement, flattened, then the side-to-move bit, the four castling
bits and the en-passant one-hot are concatenated. -/
def sparseCore (ranks : List (List Char)) (stm castling ep : List Char) :
    Except String (List ℤ) :=
  match sparseRanksLoop (List.replicate 13 (List.replicate 64 0)) 0 ranks with
  | .error e => .error e
  | .ok (planes, _) =>
    match epArraySparse ep with
    | .error e => .error e
    | .ok epArr =>
      let sideToMove : List ℤ := [if stm = ['w'] then 1 else 0]
      let castlingArr : List ℤ :=
        [if 'K' ∈ castling then 1 else 0, if 'Q' ∈ castling then 1 else 0,
         if 'k' ∈ castling then 1 else 0, if 'q' ∈ castling then 1 else 0]
      .ok (planes.flatten ++ sideToMove ++ castlingArr ++ epArr)

/-- Translation of `fen_to_sparse_array` (training.py, lines 10–66). -/
def fen_to_sparse_array (fen : String) : Except String (List ℤ) :=
  match splitOnChar ' ' fen.toList with
  | [bf, stm, castling, ep, _, _] => sparseCore (splitOnChar '/' bf) stm castling ep
  | _ => .error "ValueError: unpack"

/-- Is an `Except` the error case? -/
def isErr : Except ε α → Bool
  | .error _ => true
  | .ok _ => false

/-! ### The evaluation heuristic and training-pair generator (position_data.py) -/

/-- Translation of `compute_evaluation` (position_data.py, lines 29–33). -/
def compute_evaluation (move_number total_moves : ℕ) (winner : String) : ℚ :=
  let normalized_move : ℚ := (move_number : ℚ) / (total_moves : ℚ)
  let evaluation := 3 * normalized_move ^ 2 - 2 * normalized_move ^ 3
  if winner = "white" then evaluation else -evaluation

/-- Models `"white" if result == "1-0" else "black" if result == "0-1" else None`,
applied to `game.headers.get("Result")`. -/
def winnerOf (result : Option String) : Option String :=
  if result = some "1-0" then some "white"
  else if result = some "0-1" then some "black"
  else none

/-- What `generate_training_data` reads from a `chess.pgn.Game`: the result
header, the starting board, and the mainline move list.  Move application
(`board.push`) belongs to the external `python-chess` library and is
therefore a parameter. -/
structure GameRec (M : Type) where
  result : Option String
  start : Board
  moves : List M

/-- The move loop of `generate_training_data` (lines 44–51): push the move,
encode the resulting board, compute the label, and negate it when
`board.turn == chess.BLACK` after the push. -/
def gtdLoop {M : Type} (push : Board → M → Board) (total : ℕ) (winner : String) :
    Board → ℕ → List M → List (Tensor × ℚ)
  | _, _, [] => []
  | b, i, m :: ms =>
    let b' := push b m
    let tensor := board_to_np_array b'
    let ev0 := compute_evaluation i total winner
    let ev := if b'.turn = PieceColor.black then -ev0 else ev0
    (tensor, ev) :: gtdLoop push total winner b' (i + 1) ms

/-- Translation of `generate_training_data` (position_data.py, lines 36–53). -/
def generate_training_data {M : Type} (push : Board → M → Board) (game : GameRec M) :
    List (Tensor × ℚ) :=
  match winnerOf game.result with
  | none => []
  | some w => gtdLoop push game.moves.length w game.start 1 game.moves

/-! ### The batch reader (read_pgn.py) -/

/-- The read loop of `read_pgn_in_batches`: accumulate records into `batch`,
yield whenever it reaches `batch_size`, and yield any nonempty remainder at
end of stream. -/
def readLoop {α : Type} (batch_size : ℕ) : List α → List α → List (List α)
  | batch, [] =>
    match batch with
    | [] => []
    | _ => [batch]
  | batch, g :: gs =>
    let batch' := batch ++ [g]
    if batch'.length = batch_size then batch' :: readLoop batch_size [] gs
    else readLoop batch_size batch' gs

/-- Translation of `read_pgn_in_batches` (read_pgn.py), with the stream of parsed games
abstracted as a list. -/
def read_pgn_in_batches {α : Type} (games : List α) (batch_size : ℕ) : List (List α) :=
  readLoop batch_size [] games

/-! ### The dataset adapter (`ChessDataset` in position_data.py)

To reason about aliasing, numpy tensors live in a store (address = index
into the store) and each stored `PositionData` holds the address of its
tensor.  `tensor.copy()` allocates a fresh address holding equal contents. -/

structure PositionDataRef where
  addr : ℕ
  evaluation : ℚ

/-- Translation of `ChessDataset.__getitem__` (position_data.py, lines 22–25): look up the
pair, copy its tensor into a fresh store cell, and return (new store,
address of the copy, evaluation).  `none` models Python's `IndexError` for
a bad index (and an unreachable dangling address). -/
def ChessDataset.getItem (store : List Tensor) (data : List PositionDataRef) (idx : ℕ) :
    Option (List Tensor × ℕ × ℚ) :=
  match data[idx]? with
  | none => none
  | some pd =>
    match store[pd.addr]? with
    | none => none
    | some t => some (store ++ [t], store.length, pd.evaluation)

/-- Run a sequence of indexed reads, threading the store. -/
def runReads (data : List PositionDataRef) : List Tensor → List ℕ → List Tensor
  | store, [] => store
  | store, i :: is =>
    match ChessDataset.getItem store data i with
    | some (store', _, _) => runReads data store' is
    | none => runReads data store is

/-! ### Plane-access lemmas shared by several claims -/

theorem getPlane_flipRanks (t : Tensor) (p : ℕ) :
    getPlane (flipRanks t) p = (getPlane t p).reverse := by
  induction t generalizing p with
  | nil => simp [getPlane, flipRanks]
  | cons pl pls ih =>
    cases p with
    | zero => rfl
    | succ p => exact ih p

theorem getPlane_negFirst_ge (n : ℕ) :
    ∀ (t : Tensor) (p : ℕ), n ≤ p → getPlane (negFirst n t) p = getPlane t p := by
  induction n with
  | zero => intro t p _; simp [negFirst]
  | succ n ih =>
    intro t p hp
    cases t with
    | nil => rfl
    | cons pl pls =>
      cases p with
      | zero => omega
      | succ p => exact ih pls p (by omega)

theorem getPlane_set3_ne (t : Tensor) (p q r c : ℕ) (v : ℤ) (h : p ≠ q) :
    getPlane (set3 t p r c v) q = getPlane t q :=
  getD_setNthF_ne t p q _ [] h

theorem getPlane_set3_self (t : Tensor) (p r c : ℕ) (v : ℤ) (h : p < t.length) :
    getPlane (set3 t p r c v) p = set2 (getPlane t p) r c v :=
  getD_setNthF_self t p _ [] h

/-! ### Claim C1 -/

/-- C1: refuted at a concrete input.  On the same position (lone white rook
on a1, White to move) the board-based encoder stores the rook on plane 1
while the FEN-based compact encoder stores it on plane 3, so the two
encoders do not assign every piece type the same plane index and the claimed
channel order (pawn, knight, bishop, rook, queen, king) does not hold for
the board-based encoder. -/
theorem board_vs_fen_rook_plane_divergence :
    getv (board_to_np_array ⟨[((0 : Fin 64), ⟨.rook, .white⟩)], .white, none⟩) 1 7 0 = 1 ∧
    getv (board_to_np_array ⟨[((0 : Fin 64), ⟨.rook, .white⟩)], .white, none⟩) 3 7 0 = 0 ∧
    (fen_to_cnn_input_compact "8/8/8/8/8/8/8/R7 w - - 0 1").map (fun t => getv t 3 7 0) =
      .ok 1 ∧
    (fen_to_cnn_input_compact "8/8/8/8/8/8/8/R7 w - - 0 1").map (fun t => getv t 1 7 0) =
      .ok 0 := by
  decide

/-! ### Claim C2 -/

/-- C2: the code contradicts the claim (and its own inline comment) at a
concrete input.  In a one-move game won by White, the only position is
reached by White's (the first player's) move, so per the claim its stored
label must be the unflipped heuristic value `compute_evaluation 1 1 "white"
= 1`; but after the push `board.turn` is Black, so the `if board.turn ==
chess.BLACK` branch negates it and the code stores `-1`. -/
theorem label_flip_divergence :
    (generate_training_data (fun _ m => m)
        ⟨some "1-0", ⟨[], .white, none⟩, [(⟨[], .black, none⟩ : Board)]⟩).map Prod.snd
      = [-1] ∧
    compute_evaluation 1 1 "white" = 1 ∧
    (⟨[], .black, none⟩ : Board).turn = .black := by
  refine ⟨?_, ?_, rfl⟩
  · simp [generate_training_data, winnerOf, gtdLoop, compute_evaluation]
    norm_num
  · simp [compute_evaluation]
    norm_num

/-! ### Claim C4, counterexample -/

/-- C4: refuted at a concrete input.  The placement field `x7/8/…` contains
the unrecognized character `x`; the sparse encoder raises, but the compact
encoder silently skips it and returns the all-zero tensor instead of
signalling an error. -/
theorem compact_no_error_on_unrecognized_char :
    fen_to_cnn_input_compact "x7/8/8/8/8/8/8/8 w - - 0 1" = .ok zeros3 ∧
    isErr (fen_to_sparse_array "x7/8/8/8/8/8/8/8 w - - 0 1") = true := by
  decide

/-! ### Claim C5, counterexample -/

/-- C5: refuted at a concrete input.  With a pawn placed on e3 and en-passant
target e3 (White to move), the compact FEN encoder stores the pawn at cell
(5, 4) of plane 0 but the en-passant mark at cell (2, 4) of plane 6 — the
rank-mirrored cell — so plane 6 does not use the same rank indexing as the
piece planes. -/
theorem fen_ep_plane_indexing_mismatch :
    (fen_to_cnn_input_compact "8/8/8/8/8/4P3/8/8 w - e3 0 1").map
      (fun t => (getv t 0 5 4, getv t 6 5 4, getv t 6 2 4)) = .ok (1, 0, -1) := by
  decide

/-! ### Claim C7, counterexample -/

/-- C7: refuted at a concrete input.  A game whose result header is `1-0`
(a definite White win) but which has no mainline moves yields the empty
pair list, so the empty output does not imply a draw/unknown outcome. -/
theorem decisive_zero_move_game_yields_no_pairs :
    generate_training_data (M := Unit) (fun b _ => b)
        ⟨some "1-0", ⟨[], .white, none⟩, []⟩ = [] ∧
    winnerOf (some "1-0") = some "white" := by
  decide

/-! ### Claim C9, counterexample -/

set_option maxRecDepth 40000 in
/-- C9: refuted at a concrete input.  On the standard start position the
sparse encoder's output has 13·64 + 1 + 4 + 64 = 901 entries, not the
claimed 13·64 + 5 = 837: the 64-entry en-passant one-hot is appended in
addition to the 13×64 planes and the 5 scalar bits. -/
theorem sparse_length_is_901 :
    (fen_to_sparse_array "rnbqkbnr/pppppppp/8/8/8/8/PPPPPPPP/RNBQKBNR w KQkq - 0 1").map
      List.length = .ok 901 ∧ (901 : ℕ) ≠ 13 * 64 + 5 := by
  decide

/-! ### Claim C8 -/

theorem smoothstep_mono {a b : ℚ} (ha : 0 ≤ a) (hab : a ≤ b) (hb1 : b ≤ 1) :
    3 * a ^ 2 - 2 * a ^ 3 ≤ 3 * b ^ 2 - 2 * b ^ 3 := by
  have hb0 : (0 : ℚ) ≤ b := ha.trans hab
  have ha1 : a ≤ 1 := hab.trans hb1
  nlinarith [mul_nonneg (mul_nonneg (sub_nonneg.2 hab) ha) (sub_nonneg.2 ha1),
    mul_nonneg (mul_nonneg (sub_nonneg.2 hab) hb0) (sub_nonneg.2 hb1),
    mul_nonneg (mul_nonneg (sub_nonneg.2 hab) ha) (sub_nonneg.2 hb1),
    mul_nonneg (mul_nonneg (sub_nonneg.2 hab) hb0) (sub_nonneg.2 ha1)]

theorem smoothstep_nonneg {t : ℚ} (h0 : 0 ≤ t) (h1 : t ≤ 1) :
    0 ≤ 3 * t ^ 2 - 2 * t ^ 3 := by
  nlinarith [sq_nonneg t, mul_nonneg (mul_nonneg h0 h0) (sub_nonneg.2 h1)]

theorem smoothstep_le_one {t : ℚ} (h0 : 0 ≤ t) (h1 : t ≤ 1) :
    3 * t ^ 2 - 2 * t ^ 3 ≤ 1 := by
  nlinarith [sq_nonneg (1 - t), mul_nonneg (mul_nonneg (sub_nonneg.2 h1) (sub_nonneg.2 h1)) h0]

/-- C8: for 1 ≤ i ≤ n the heuristic satisfies
`label(i, n, white) = 3 (i/n)² − 2 (i/n)³` and
`label(i, n, black) = −label(i, n, white)`; `label(n, n, white) = 1`;
for fixed n it is non-decreasing in i for a white win and non-increasing
for a black win; and every label lies in [−1, 1]. -/
theorem compute_evaluation_spec (i n : ℕ) (h1 : 1 ≤ i) (h2 : i ≤ n) :
    compute_evaluation i n "white" = 3 * ((i : ℚ) / n) ^ 2 - 2 * ((i : ℚ) / n) ^ 3 ∧
    compute_evaluation i n "black" = - compute_evaluation i n "white" ∧
    compute_evaluation n n "white" = 1 ∧
    (∀ j : ℕ, i ≤ j → j ≤ n →
      compute_evaluation i n "white" ≤ compute_evaluation j n "white" ∧
      compute_evaluation j n "black" ≤ compute_evaluation i n "black") ∧
    (∀ w : String, -1 ≤ compute_evaluation i n w ∧ compute_evaluation i n w ≤ 1) := by
  have hn : 0 < n := lt_of_lt_of_le h1 h2
  have hnQ : (0 : ℚ) < (n : ℚ) := by exact_mod_cast hn
  have ht0 : ∀ k : ℕ, (0 : ℚ) ≤ (k : ℚ) / n :=
    fun k => div_nonneg (Nat.cast_nonneg k) hnQ.le
  have ht1 : ∀ k : ℕ, k ≤ n → (k : ℚ) / n ≤ 1 := by
    intro k hk
    rw [div_le_one hnQ]
    exact_mod_cast hk
  have htm : ∀ k l : ℕ, k ≤ l → (k : ℚ) / n ≤ (l : ℚ) / n := by
    intro k l hkl
    exact (div_le_div_iff_of_pos_right hnQ).2 (by exact_mod_cast hkl)
  refine ⟨by simp [compute_evaluation], by simp [compute_evaluation], ?_, ?_, ?_⟩
  · simp only [compute_evaluation, if_pos]
    rw [div_self (ne_of_gt hnQ)]
    norm_num
  · intro j hij hjn
    have hm := smoothstep_mono (ht0 i) (htm i j hij) (ht1 j hjn)
    constructor
    · simpa [compute_evaluation] using hm
    · simp [compute_evaluation]
      linarith [hm]
  · intro w
    have h0i := smoothstep_nonneg (ht0 i) (ht1 i h2)
    have h1i := smoothstep_le_one (ht0 i) (ht1 i h2)
    by_cases hw : w = "white" <;>
      simp only [compute_evaluation, hw, if_pos, if_neg, reduceIte] <;>
      constructor <;> nlinarith [h0i, h1i]

/-- Witness for `compute_evaluation_spec` at i = 1, n = 2: the hypotheses
hold and `label(2, 2, white) = 1`. -/
theorem compute_evaluation_spec_witness :
    (1 : ℕ) ≤ 1 ∧ (1 : ℕ) ≤ 2 ∧ compute_evaluation 2 2 "white" = 1 :=
  ⟨le_refl 1, by norm_num,
    (compute_evaluation_spec 1 2 (le_refl 1) (by norm_num)).2.2.1⟩

/-! ### Claim C6 -/

/-- Reference chunking: split a list into consecutive chunks of `b` (the head
chunk is explicit so the recursion is on a strictly shorter list). -/
def chunkList {α : Type} (b : ℕ) : List α → List (List α)
  | [] => []
  | g :: gs => (g :: gs.take (b - 1)) :: chunkList b (gs.drop (b - 1))
termination_by l => l.length
decreasing_by simp; omega

theorem chunkList_eq_nil_iff {α : Type} (b : ℕ) (l : List α) :
    chunkList b l = [] ↔ l = [] := by
  cases l <;> simp [chunkList]

theorem chunkList_append_of_length {α : Type} (b : ℕ) (hb : 1 ≤ b)
    (l rest : List α) (hl : l.length = b) :
    chunkList b (l ++ rest) = l :: chunkList b rest := by
  cases l with
  | nil => simp at hl; omega
  | cons x xs =>
    have hxs : xs.length = b - 1 := by simp at hl; omega
    rw [List.cons_append, chunkList]
    rw [← hxs, List.take_append_of_le_length (le_refl _), List.take_length,
      List.drop_append_of_le_length (le_refl _), List.drop_length]
    simp

theorem readLoop_eq_chunkList {α : Type} (b : ℕ) (hb : 1 ≤ b) :
    ∀ (rest batch : List α), batch.length < b →
      readLoop b batch rest = chunkList b (batch ++ rest) := by
  intro rest
  induction rest with
  | nil =>
    intro batch hlen
    cases batch with
    | nil => simp [readLoop, chunkList]
    | cons x xs =>
      have hxs : xs.length ≤ b - 1 := by simp at hlen; omega
      simp only [readLoop, List.append_nil, chunkList]
      rw [List.take_of_length_le hxs, List.drop_of_length_le hxs]
      simp [chunkList]
  | cons g gs ih =>
    intro batch hlen
    rw [readLoop]
    by_cases hfull : (batch ++ [g]).length = b
    · rw [if_pos hfull, ih [] (by simp; omega)]
      have : batch ++ g :: gs = (batch ++ [g]) ++ gs := by simp
      rw [this, chunkList_append_of_length b hb _ _ hfull]
      simp
    · rw [if_neg hfull]
      have hlt : (batch ++ [g]).length < b := by
        simp at hfull hlen ⊢; omega
      rw [ih (batch ++ [g]) hlt]
      simp

theorem chunkList_flatten {α : Type} (b : ℕ) (l : List α) :
    (chunkList b l).flatten = l := by
  induction l using chunkList.induct b with
  | case1 => simp [chunkList]
  | case2 g gs ih =>
    rw [chunkList]
    simp only [List.flatten_cons, ih]
    simp [List.take_append_drop]

theorem chunkList_length_bounds {α : Type} (b : ℕ) (hb : 1 ≤ b) (l : List α) :
    l.length ≤ (chunkList b l).length * b ∧
    (chunkList b l).length * b < l.length + b := by
  induction l using chunkList.induct b with
  | case1 => simp [chunkList]; omega
  | case2 g gs ih =>
    rw [chunkList]
    simp only [List.length_cons, List.length_drop] at ih ⊢
    rcases Nat.eq_zero_or_pos (chunkList b (gs.drop (b - 1))).length with h0 | hpos
    · rw [h0] at ih ⊢
      have : gs.drop (b - 1) = [] := (chunkList_eq_nil_iff b _).1
        (List.length_eq_zero.1 h0)
      have : gs.length ≤ b - 1 := by
        have := List.drop_eq_nil_iff.1 this
        omega
      simp; omega
    · have hge : b ≤ (chunkList b (gs.drop (b - 1))).length * b :=
        Nat.le_mul_of_pos_left b hpos
      have hexp : ((chunkList b (gs.drop (b - 1))).length + 1) * b =
          (chunkList b (gs.drop (b - 1))).length * b + b := by ring
      omega

theorem chunkList_dropLast_length {α : Type} (b : ℕ) (hb : 1 ≤ b) (l : List α) :
    ∀ c ∈ (chunkList b l).dropLast, c.length = b := by
  induction l using chunkList.induct b with
  | case1 => simp [chunkList]
  | case2 g gs ih =>
    rw [chunkList]
    by_cases hnil : chunkList b (gs.drop (b - 1)) = []
    · rw [hnil]
      simp
    · have hlen : b - 1 ≤ gs.length := by
        by_contra hlt
        exact hnil ((chunkList_eq_nil_iff b _).2
          (List.drop_eq_nil_of_le (by omega)))
      intro c hc
      rw [List.dropLast_cons_of_ne_nil hnil] at hc
      rcases List.mem_cons.1 hc with h | h
      · subst h
        simp [List.length_take]
        omega
      · exact ih c h

theorem getLast?_cons_of_ne_nil {α : Type} (a : α) (l : List α) (h : l ≠ []) :
    (a :: l).getLast? = l.getLast? := by
  cases l with
  | nil => exact absurd rfl h
  | cons x xs => simp

theorem chunkList_getLast {α : Type} (b : ℕ) (hb : 1 ≤ b) (l : List α) (hl : l ≠ []) :
    ∃ c, (chunkList b l).getLast? = some c ∧ c.length = (l.length - 1) % b + 1 := by
  induction l using chunkList.induct b with
  | case1 => exact absurd rfl hl
  | case2 g gs ih =>
    rw [chunkList]
    by_cases hnil : gs.drop (b - 1) = []
    · have hle : gs.length ≤ b - 1 := List.drop_eq_nil_iff.1 hnil
      rw [(chunkList_eq_nil_iff b _).2 hnil]
      refine ⟨g :: gs.take (b - 1), rfl, ?_⟩
      rw [List.take_of_length_le hle]
      simp [Nat.mod_eq_of_lt (show gs.length < b by omega)]
    · have hlen : b ≤ gs.length := by
        have := (not_congr List.drop_eq_nil_iff).1 hnil
        omega
      obtain ⟨c, hc, hclen⟩ := ih hnil
      refine ⟨c, ?_, ?_⟩
      · rw [getLast?_cons_of_ne_nil _ _ ((not_congr (chunkList_eq_nil_iff b _)).2 hnil)]
        exact hc
      · rw [hclen]
        simp only [List.length_drop, List.length_cons]
        have : gs.length - (b - 1) - 1 = gs.length + 1 - 1 - b := by omega
        rw [this, Nat.sub_one]
        rw [← Nat.mod_eq_sub_mod (by simpa using hlen)]

/-- C6: for every source of `k` game records and every `batchSize ≥ 1`,
`read_pgn_in_batches` yields exactly `⌈k / b⌉` batches whose in-order
concatenation is the original record sequence; every batch except possibly
the last has exactly `b` records, the last has `((k − 1) mod b) + 1`
records (so a short final batch is still emitted), and an empty source
yields zero batches. -/
theorem read_pgn_in_batches_spec {α : Type} (games : List α) (b : ℕ) (hb : 1 ≤ b) :
    (read_pgn_in_batches games b).length = (games.length + b - 1) / b ∧
    (read_pgn_in_batches games b).flatten = games ∧
    (∀ c ∈ (read_pgn_in_batches games b).dropLast, c.length = b) ∧
    (games ≠ [] → ∃ c, (read_pgn_in_batches games b).getLast? = some c ∧
      c.length = (games.length - 1) % b + 1) ∧
    (games = [] → read_pgn_in_batches games b = []) := by
  have heq : read_pgn_in_batches games b = chunkList b games :=
    readLoop_eq_chunkList b hb games [] (by simp; omega)
  rw [heq]
  refine ⟨?_, chunkList_flatten b games, chunkList_dropLast_length b hb games,
    chunkList_getLast b hb games, fun h => by simp [h, chunkList]⟩
  obtain ⟨hlo, hhi⟩ := chunkList_length_bounds b hb games
  have h1 : (chunkList b games).length ≤ (games.length + b - 1) / b := by
    rw [Nat.le_div_iff_mul_le (by omega)]
    omega
  have h2 : (games.length + b - 1) / b < (chunkList b games).length + 1 := by
    rw [Nat.div_lt_iff_lt_mul (by omega)]
    have : ((chunkList b games).length + 1) * b = (chunkList b games).length * b + b := by
      ring
    omega
  omega

/-- Witness for `read_pgn_in_batches_spec`: a source of 5 records with
batch size 2 yields 3 batches whose concatenation is the source, full
batches of 2, and a final batch of (5−1) mod 2 + 1 = 1 record. -/
theorem read_pgn_in_batches_spec_witness :
    1 ≤ 2 ∧
    ((read_pgn_in_batches [10, 20, 30, 40, 50] 2).length = (5 + 2 - 1) / 2 ∧
      (read_pgn_in_batches [10, 20, 30, 40, 50] 2).flatten = [10, 20, 30, 40, 50] ∧
      (∀ c ∈ (read_pgn_in_batches [10, 20, 30, 40, 50] 2).dropLast, c.length = 2) ∧
      (([10, 20, 30, 40, 50] : List ℕ) ≠ [] →
        ∃ c, (read_pgn_in_batches [10, 20, 30, 40, 50] 2).getLast? = some c ∧
          c.length = (5 - 1) % 2 + 1) ∧
      (([10, 20, 30, 40, 50] : List ℕ) = [] →
        read_pgn_in_batches [10, 20, 30, 40, 50] 2 = [])) :=
  ⟨by norm_num, by
    have h := read_pgn_in_batches_spec [10, 20, 30, 40, 50] 2 (by norm_num)
    simpa using h⟩



/-! ### Claim C3 -/

/-- C3: for both 7-plane encoders, the Black-to-move output is the
absolute-color encoding with the rank axis mirrored and planes 0–5 negated
(`negatePieces` touches exactly planes 0–5, so plane 6 is mirrored but not
negated, witnessed by the last conjunct), and the White-to-move output is
the absolute-color encoding unchanged. -/
theorem perspective_flip_spec :
    (∀ b : Board, b.turn = PieceColor.black →
      board_to_np_array b = negatePieces (flipRanks (board_abs b))) ∧
    (∀ b : Board, b.turn = PieceColor.white →
      board_to_np_array b = board_abs b) ∧
    (∀ (ranks : List (List Char)) (ep : List Char) (t : Tensor),
      compactCore ranks ['w'] ep = .ok t →
      compactCore ranks ['b'] ep = .ok (negatePieces (flipRanks t))) ∧
    (∀ t : Tensor, getPlane (negatePieces t) 6 = getPlane t 6) := by
  refine ⟨?_, ?_, ?_, fun t => getPlane_negFirst_ge 6 t 6 (le_refl 6)⟩
  · intro b hb
    simp [board_to_np_array, board_abs, hb]
  · intro b hb
    simp [board_to_np_array, board_abs, hb]
  · intro ranks ep t h
    rcases hpl : placeRanksCompact zeros3 0 ranks with e | a
    · simp [compactCore, hpl] at h
    · rcases hep : epApplyCompact a ep with e | a2
      · simp [compactCore, hpl, hep] at h
      · simp [compactCore, hpl, hep] at h ⊢
        simp [h]

/-- Witness for `perspective_flip_spec` at concrete inputs: an empty board
with Black to move, and the one-rank placement `8` with en-passant `-`. -/
theorem perspective_flip_spec_witness :
    ((⟨[], .black, none⟩ : Board).turn = PieceColor.black ∧
      board_to_np_array ⟨[], .black, none⟩ =
        negatePieces (flipRanks (board_abs ⟨[], .black, none⟩))) ∧
    (compactCore [['8']] ['w'] ['-'] = .ok zeros3 ∧
      compactCore [['8']] ['b'] ['-'] = .ok (negatePieces (flipRanks zeros3))) :=
  ⟨⟨rfl, perspective_flip_spec.1 _ rfl⟩,
    ⟨by decide, perspective_flip_spec.2.2.1 [['8']] ['-'] zeros3 (by decide)⟩⟩

/-! ### Claim C4, amended theorem -/

theorem sparseChars_err (chars : List Char) :
    ∀ (planes : Plane) (sqIdx : ℕ),
      (∃ c ∈ chars, ¬ c.isDigit ∧ pieceToIndexSparse c = none) →
      isErr (sparseChars planes sqIdx chars) = true := by
  induction chars with
  | nil =>
    intro _ _ h
    obtain ⟨c, hc, _⟩ := h
    simp at hc
  | cons ch rest ih =>
    intro planes sqIdx h
    obtain ⟨c, hc, hcd, hcp⟩ := h
    rcases List.mem_cons.1 hc with rfl | hcr
    · simp [sparseChars, hcd, hcp, isErr]
    · by_cases hd : ch.isDigit
      · simp only [sparseChars, if_pos hd]
        exact ih _ _ ⟨c, hcr, hcd, hcp⟩
      · rcases hp : pieceToIndexSparse ch with _ | p
        · simp [sparseChars, hd, hp, isErr]
        · simp only [sparseChars, if_neg hd, hp]
          by_cases hs : sqIdx < 64
          · simp only [if_pos hs]
            exact ih _ _ ⟨c, hcr, hcd, hcp⟩
          · simp [hs, isErr]

theorem sparseRanksLoop_err (ranks : List (List Char)) :
    ∀ (planes : Plane) (sqIdx : ℕ),
      (∃ c ∈ ranks.flatten, ¬ c.isDigit ∧ pieceToIndexSparse c = none) →
      isErr (sparseRanksLoop planes sqIdx ranks) = true := by
  induction ranks with
  | nil =>
    intro _ _ h
    obtain ⟨c, hc, _⟩ := h
    simp at hc
  | cons r rs ih =>
    intro planes sqIdx h
    obtain ⟨c, hc, hcd, hcp⟩ := h
    rw [List.flatten_cons] at hc
    rcases hr : sparseChars planes sqIdx r with e | ⟨planes', sqIdx'⟩
    · simp [sparseRanksLoop, hr, isErr]
    · simp only [sparseRanksLoop, hr]
      rcases List.mem_append.1 hc with hin | hin
      · have herr := sparseChars_err r planes sqIdx ⟨c, hin, hcd, hcp⟩
        rw [hr] at herr
        simp [isErr] at herr
      · exact ih planes' sqIdx' ⟨c, hin, hcd, hcp⟩

theorem rankLoopCompact_skips_aux (chars : List Char) :
    ∀ (t : Tensor) (row col : ℕ),
      rankLoopCompact t row col chars =
        rankLoopCompact t row col
          (chars.filter fun c => c.isDigit || (pieceToIndexCompact c).isSome) := by
  induction chars with
  | nil => intro t row col; rfl
  | cons ch rest ih =>
    intro t row col
    by_cases hd : ch.isDigit
    · rw [List.filter_cons_of_pos (by simp [hd])]
      simp only [rankLoopCompact, if_pos hd]
      exact ih _ _ _
    · rcases hp : pieceToIndexCompact ch with _ | p
      · rw [List.filter_cons_of_neg (by simp [hd, hp])]
        simp only [rankLoopCompact, if_neg hd, hp]
        exact ih _ _ _
      · rw [List.filter_cons_of_pos (by simp [hd, hp])]
        simp only [rankLoopCompact, if_neg hd, hp]
        by_cases hrc : row < 8 ∧ col < 8
        · simp only [if_pos hrc]
          exact ih _ _ _
        · simp only [if_neg hrc]

/-- C4 amended: an unrecognized character in the piece-placement field makes
the sparse FEN encoder signal an error to its immediate caller, but the
compact 7-plane FEN encoder does not signal anything: its placement loop
behaves exactly as if the unrecognized characters were deleted from the
input (they are skipped silently). -/
theorem unrecognized_char_handling :
    (∀ (ranks : List (List Char)) (stm castling ep : List Char),
      (∃ c ∈ ranks.flatten, ¬ c.isDigit ∧ pieceToIndexSparse c = none) →
      isErr (sparseCore ranks stm castling ep) = true) ∧
    (∀ (t : Tensor) (row col : ℕ) (chars : List Char),
      rankLoopCompact t row col chars =
        rankLoopCompact t row col
          (chars.filter fun c => c.isDigit || (pieceToIndexCompact c).isSome)) := by
  constructor
  · intro ranks stm castling ep h
    rcases hr : sparseRanksLoop (List.replicate 13 (List.replicate 64 0)) 0 ranks
        with e | ⟨planes', sqIdx'⟩
    · unfold sparseCore
      rw [hr]
      rfl
    · have herr := sparseRanksLoop_err ranks (List.replicate 13 (List.replicate 64 0)) 0 h
      rw [hr] at herr
      simp [isErr] at herr
  · intro t row col chars
    exact rankLoopCompact_skips_aux chars t row col

/-- Witness for `unrecognized_char_handling` at the placement `x7`: the
sparse encoder errors, and the compact loop treats `x7` like `7`. -/
theorem unrecognized_char_handling_witness :
    isErr (sparseCore [['x', '7']] ['w'] ['-'] ['-']) = true ∧
    rankLoopCompact zeros3 0 0 ['x', '7'] =
      rankLoopCompact zeros3 0 0
        (['x', '7'].filter fun c => c.isDigit || (pieceToIndexCompact c).isSome) :=
  ⟨unrecognized_char_handling.1 [['x', '7']] ['w'] ['-'] ['-']
      ⟨'x', by decide, by decide, by decide⟩,
    unrecognized_char_handling.2 zeros3 0 0 ['x', '7']⟩

/-! ### Claim C9, amended theorem: shape invariants -/

theorem isShape_set3 (t : Tensor) (h : IsShape788 t) (p r c : ℕ) (v : ℤ) :
    IsShape788 (set3 t p r c v) := by
  obtain ⟨hlen, hmem⟩ := h
  refine ⟨by rw [set3, length_setNthF]; exact hlen, ?_⟩
  refine mem_setNthF t p _ (fun pl => pl.length = 8 ∧ ∀ r ∈ pl, r.length = 8) hmem ?_
  rintro x ⟨hx1, hx2⟩
  refine ⟨by rw [length_setNthF]; exact hx1, ?_⟩
  exact mem_setNthF x r _ (fun row => row.length = 8) hx2
    (fun row hr => by simpa [length_setNthF] using hr)

theorem isShape_flipRanks (t : Tensor) (h : IsShape788 t) : IsShape788 (flipRanks t) := by
  obtain ⟨hlen, hmem⟩ := h
  refine ⟨by simpa [flipRanks] using hlen, ?_⟩
  intro p hp
  rw [flipRanks, List.mem_map] at hp
  obtain ⟨q, hq, rfl⟩ := hp
  obtain ⟨hq1, hq2⟩ := hmem q hq
  exact ⟨by simpa using hq1, fun r hr => hq2 r (List.mem_reverse.1 hr)⟩

theorem length_negFirst (n : ℕ) : ∀ t : Tensor, (negFirst n t).length = t.length := by
  induction n with
  | zero => intro t; simp [negFirst]
  | succ n ih =>
    intro t
    cases t with
    | nil => rfl
    | cons pl pls => simpa [negFirst] using ih pls

theorem mem_negFirst (n : ℕ) :
    ∀ t : Tensor, ∀ p ∈ negFirst n t,
      ∃ q ∈ t, p = q ∨ p = q.map (fun row => row.map fun v => -v) := by
  induction n with
  | zero =>
    intro t p hp
    rw [negFirst] at hp
    exact ⟨p, hp, Or.inl rfl⟩
  | succ n ih =>
    intro t p hp
    cases t with
    | nil => simp [negFirst] at hp
    | cons pl pls =>
      rcases List.mem_cons.1 hp with h | h
      · exact ⟨pl, List.mem_cons_self _ _, Or.inr h⟩
      · obtain ⟨q, hq, hor⟩ := ih pls p h
        exact ⟨q, List.mem_cons_of_mem _ hq, hor⟩

theorem isShape_negatePieces (t : Tensor) (h : IsShape788 t) :
    IsShape788 (negatePieces t) := by
  obtain ⟨hlen, hmem⟩ := h
  refine ⟨by rw [negatePieces, length_negFirst]; exact hlen, ?_⟩
  intro p hp
  obtain ⟨q, hq, hor⟩ := mem_negFirst 6 t p hp
  obtain ⟨hq1, hq2⟩ := hmem q hq
  rcases hor with rfl | rfl
  · exact ⟨hq1, hq2⟩
  · refine ⟨by simpa using hq1, ?_⟩
    intro r hr
    rw [List.mem_map] at hr
    obtain ⟨r0, hr0, rfl⟩ := hr
    simpa using hq2 r0 hr0

theorem rankLoopCompact_shape (chars : List Char) :
    ∀ (t : Tensor) (row col : ℕ) (t' : Tensor) (col' : ℕ), IsShape788 t →
      rankLoopCompact t row col chars = .ok (t', col') → IsShape788 t' := by
  induction chars with
  | nil =>
    intro t row col t' col' ht h
    simp [rankLoopCompact] at h
    rw [← h.1]
    exact ht
  | cons ch rest ih =>
    intro t row col t' col' ht h
    rw [rankLoopCompact] at h
    by_cases hd : ch.isDigit
    · rw [if_pos hd] at h
      exact ih _ _ _ _ _ ht h
    · rw [if_neg hd] at h
      split at h
      · by_cases hrc : row < 8 ∧ col < 8
        · rw [if_pos hrc] at h
          exact ih _ _ _ _ _ (isShape_set3 t ht _ _ _ _) h
        · rw [if_neg hrc] at h
          cases h
      · exact ih _ _ _ _ _ ht h

theorem placeRanksCompact_shape (ranks : List (List Char)) :
    ∀ (t : Tensor) (row : ℕ) (t' : Tensor), IsShape788 t →
      placeRanksCompact t row ranks = .ok t' → IsShape788 t' := by
  induction ranks with
  | nil =>
    intro t row t' ht h
    simp [placeRanksCompact] at h
    rw [← h]
    exact ht
  | cons r rs ih =>
    intro t row t' ht h
    rw [placeRanksCompact] at h
    split at h
    · rename_i t1 col1 heq
      exact ih _ _ _ (rankLoopCompact_shape r t row 0 t1 col1 ht heq) h
    · cases h

theorem isShape_zeros3 : IsShape788 zeros3 := by
  refine ⟨rfl, ?_⟩
  intro p hp
  rw [zeros3] at hp
  rw [List.eq_of_mem_replicate hp]
  refine ⟨rfl, ?_⟩
  intro r hr
  rw [List.eq_of_mem_replicate hr]
  rfl

theorem epApplyCompact_shape (t : Tensor) (ep : List Char) (t' : Tensor)
    (ht : IsShape788 t) (h : epApplyCompact t ep = .ok t') : IsShape788 t' := by
  rw [epApplyCompact.eq_def] at h
  by_cases hdash : ep = ['-']
  · rw [if_pos hdash] at h
    injection h with h
    rw [← h]
    exact ht
  · rw [if_neg hdash] at h
    rcases ep with _ | ⟨c0, _ | ⟨c1, tail⟩⟩
    · cases h
    · cases h
    · dsimp only at h
      by_cases hdig : c1.isDigit
      · rw [if_pos hdig] at h
        split at h
        · injection h with h
          rw [← h]
          exact isShape_set3 t ht _ _ _ _
        · cases h
      · rw [if_neg hdig] at h
        cases h

theorem compactCore_shape (ranks : List (List Char)) (turn ep : List Char) (t : Tensor)
    (h : compactCore ranks turn ep = .ok t) : IsShape788 t := by
  have hz : IsShape788 zeros3 := isShape_zeros3
  rw [compactCore] at h
  split at h
  · cases h
  · rename_i a hpl
    split at h
    · cases h
    · rename_i a2 hep
      have h2 : IsShape788 a2 :=
        epApplyCompact_shape a ep a2 (placeRanksCompact_shape ranks zeros3 0 a hz hpl) hep
      split at h <;> injection h with h <;> rw [← h]
      · exact isShape_negatePieces _ (isShape_flipRanks _ h2)
      · exact h2

theorem boardRaw_shape (b : Board) : IsShape788 (boardRaw b) := by
  have hz : IsShape788 zeros3 := isShape_zeros3
  have hfold : ∀ (ps : List (Fin 64 × ChessPiece)) (t : Tensor), IsShape788 t →
      IsShape788 (ps.foldl (fun t sp =>
        set3 t (pieceLayer sp.2.pieceType) ((sp.1 : ℕ) / 8) ((sp.1 : ℕ) % 8)
          (if sp.2.color = PieceColor.white then 1 else -1)) t) := by
    intro ps
    induction ps with
    | nil => intro t ht; exact ht
    | cons sp rest ih => intro t ht; exact ih _ (isShape_set3 t ht _ _ _ _)
  rw [boardRaw]
  cases b.ep_square with
  | none => exact hfold b.pieces zeros3 hz
  | some sq => exact isShape_set3 _ (hfold b.pieces zeros3 hz) _ _ _ _

theorem sparsePlanes_shape (chars : List Char) :
    ∀ (planes : Plane) (sqIdx : ℕ) (planes' : Plane) (sqIdx' : ℕ),
      planes.length = 13 → (∀ r ∈ planes, r.length = 64) →
      sparseChars planes sqIdx chars = .ok (planes', sqIdx') →
      planes'.length = 13 ∧ ∀ r ∈ planes', r.length = 64 := by
  induction chars with
  | nil =>
    intro planes sqIdx planes' sqIdx' h13 h64 h
    simp [sparseChars] at h
    rw [← h.1]
    exact ⟨h13, h64⟩
  | cons ch rest ih =>
    intro planes sqIdx planes' sqIdx' h13 h64 h
    rw [sparseChars] at h
    by_cases hd : ch.isDigit
    · rw [if_pos hd] at h
      exact ih _ _ _ _ h13 h64 h
    · rw [if_neg hd] at h
      split at h
      · split at h
        · refine ih _ _ _ _ ?_ ?_ h
          · rw [set2, length_setNthF]
            exact h13
          · exact mem_setNthF planes _ _ (fun r => r.length = 64) h64
              (fun r hr => by simpa [length_setNthF] using hr)
        · cases h
      · cases h

theorem sparseRanks_shape (ranks : List (List Char)) :
    ∀ (planes : Plane) (sqIdx : ℕ) (planes' : Plane) (sqIdx' : ℕ),
      planes.length = 13 → (∀ r ∈ planes, r.length = 64) →
      sparseRanksLoop planes sqIdx ranks = .ok (planes', sqIdx') →
      planes'.length = 13 ∧ ∀ r ∈ planes', r.length = 64 := by
  induction ranks with
  | nil =>
    intro planes sqIdx planes' sqIdx' h13 h64 h
    simp [sparseRanksLoop] at h
    rw [← h.1]
    exact ⟨h13, h64⟩
  | cons r rs ih =>
    intro planes sqIdx planes' sqIdx' h13 h64 h
    rw [sparseRanksLoop] at h
    split at h
    · rename_i p1 s1 heq
      obtain ⟨g13, g64⟩ := sparsePlanes_shape r planes sqIdx p1 s1 h13 h64 heq
      exact ih _ _ _ _ g13 g64 h
    · cases h

theorem epArraySparse_length (ep : List Char) (v : Row) (h : epArraySparse ep = .ok v) :
    v.length = 64 := by
  rw [epArraySparse.eq_def] at h
  by_cases hdash : ep = ['-']
  · rw [if_pos hdash] at h
    injection h with h
    rw [← h]
    simp
  · rw [if_neg hdash] at h
    rcases ep with _ | ⟨c0, _ | ⟨c1, tail⟩⟩
    · cases h
    · cases h
    · dsimp only at h
      by_cases hdig : c1.isDigit
      · rw [if_pos hdig] at h
        split at h
        · injection h with h
          rw [← h, length_setNthF]
          simp
        · cases h
      · rw [if_neg hdig] at h
        cases h

theorem flatten_length_of (planes : Plane) (h : ∀ r ∈ planes, r.length = 64) :
    planes.flatten.length = planes.length * 64 := by
  induction planes with
  | nil => simp
  | cons r rs ih =>
    rw [List.flatten_cons, List.length_append, h r (List.mem_cons_self _ _),
      ih (fun q hq => h q (List.mem_cons_of_mem _ hq))]
    simp [List.length_cons]
    ring

/-- C9 amended: the 7-plane encoders always return a 7×8×8 tensor, and the
sparse encoder returns a flat vector of 13·64 + 1 + 4 + 64 = 901 entries
(not 13·64 + 5 = 837): 13 planes of 64 entries, one side-to-move bit, four
castling bits, and then the 64-entry en-passant one-hot appended at the
end. -/
theorem encode_shapes :
    (∀ b : Board, IsShape788 (board_to_np_array b)) ∧
    (∀ (fen : String) (t : Tensor), fen_to_cnn_input_compact fen = .ok t → IsShape788 t) ∧
    (∀ (fen : String) (v : List ℤ), fen_to_sparse_array fen = .ok v →
      v.length = 13 * 64 + 1 + 4 + 64 ∧
      ∃ (planes : Plane) (sideToMove castlingArr epArr : List ℤ),
        v = planes.flatten ++ sideToMove ++ castlingArr ++ epArr ∧
        planes.length = 13 ∧ (∀ r ∈ planes, r.length = 64) ∧
        sideToMove.length = 1 ∧ castlingArr.length = 4 ∧ epArr.length = 64) := by
  refine ⟨?_, ?_, ?_⟩
  · intro b
    rw [board_to_np_array]
    have habs : IsShape788 (flipRanks (boardRaw b)) := isShape_flipRanks _ (boardRaw_shape b)
    split
    · exact isShape_negatePieces _ (isShape_flipRanks _ habs)
    · exact habs
  · intro fen t h
    rw [fen_to_cnn_input_compact] at h
    split at h
    · exact compactCore_shape _ _ _ t h
    · cases h
  · intro fen v h
    rw [fen_to_sparse_array] at h
    split at h
    · rename_i bf stm castling ep cnt1 cnt2 heq
      rw [sparseCore] at h
      split at h
      · cases h
      · rename_i planes0 sqIdx0 hpl
        split at h
        · cases h
        · rename_i epArr hep
          obtain ⟨h13, h64⟩ := sparseRanks_shape _ _ _ _ _ (by simp) (by simp) hpl
          injection h with h
          have hflat : planes0.flatten.length = 832 := by
            rw [flatten_length_of planes0 h64, h13]
          have hepl : epArr.length = 64 := epArraySparse_length ep epArr hep
          constructor
          · rw [← h, List.length_append, List.length_append, List.length_append,
              hflat, hepl]
            rfl
          · refine ⟨planes0, [if stm = ['w'] then 1 else 0],
              [if 'K' ∈ castling then 1 else 0, if 'Q' ∈ castling then 1 else 0,
               if 'k' ∈ castling then 1 else 0, if 'q' ∈ castling then 1 else 0],
              epArr, ?_, h13, h64, rfl, rfl, hepl⟩
            rw [← h]
    · cases h

set_option maxRecDepth 100000 in
/-- Witness for `encode_shapes` at concrete inputs: the empty board and the
empty-placement FEN; the sparse output's length is 901. -/
theorem encode_shapes_witness :
    IsShape788 (board_to_np_array ⟨[], .white, none⟩) ∧
    fen_to_cnn_input_compact "8/8/8/8/8/8/8/8 w - - 0 1" = .ok zeros3 ∧
    IsShape788 zeros3 ∧
    fen_to_sparse_array "8/8/8/8/8/8/8/8 w - - 0 1" =
      .ok ((List.replicate 13 (List.replicate 64 (0 : ℤ))).flatten ++ [1] ++
        [0, 0, 0, 0] ++ List.replicate 64 0) ∧
    ((List.replicate 13 (List.replicate 64 (0 : ℤ))).flatten ++ [1] ++
        [0, 0, 0, 0] ++ List.replicate 64 0).length = 13 * 64 + 1 + 4 + 64 :=
  ⟨encode_shapes.1 _, by decide,
    encode_shapes.2.1 "8/8/8/8/8/8/8/8 w - - 0 1" zeros3 (by decide),
    by decide, (encode_shapes.2.2 "8/8/8/8/8/8/8/8 w - - 0 1" _ (by decide)).1⟩

/-! ### Claim C5, amended theorem -/

theorem setNthF_append_right (l₁ l₂ : List α) (n : ℕ) (f : α → α) :
    setNthF (l₁ ++ l₂) (l₁.length + n) f = l₁ ++ setNthF l₂ n f := by
  induction l₁ with
  | nil => simp
  | cons x xs ih => simpa [setNthF, Nat.succ_add] using ih

theorem setNthF_append_left (l₁ l₂ : List α) (n : ℕ) (f : α → α) (h : n < l₁.length) :
    setNthF (l₁ ++ l₂) n f = setNthF l₁ n f ++ l₂ := by
  induction l₁ generalizing n with
  | nil => simp at h
  | cons x xs ih =>
    cases n with
    | zero => rfl
    | succ n => simpa [setNthF] using ih n (by simpa using h)

theorem reverse_setNthF (l : List α) (n : ℕ) (f : α → α) (h : n < l.length) :
    (setNthF l n f).reverse = setNthF l.reverse (l.length - 1 - n) f := by
  induction l generalizing n with
  | nil => simp at h
  | cons x xs ih =>
    cases n with
    | zero =>
      have : xs.length + 1 - 1 - 0 = xs.reverse.length + 0 := by simp
      simp only [setNthF, List.reverse_cons, List.length_cons, this,
        setNthF_append_right]
    | succ n =>
      have hn : n < xs.length := by simpa using h
      have hidx : xs.length + 1 - 1 - (n + 1) = xs.length - 1 - n := by omega
      have hlt : xs.length - 1 - n < xs.reverse.length := by simp; omega
      simp only [setNthF, List.reverse_cons, List.length_cons, hidx]
      rw [ih n hn, setNthF_append_left _ _ _ _ hlt]

theorem length_set3 (t : Tensor) (p r c : ℕ) (v : ℤ) :
    (set3 t p r c v).length = t.length := length_setNthF t p _

theorem reverse_set2_zeroPlane (r c : ℕ) (v : ℤ) (h : r < 8) :
    (set2 zeroPlane r c v).reverse = set2 zeroPlane (7 - r) c v := by
  have h8 : zeroPlane.length = 8 := rfl
  rw [set2, reverse_setNthF _ _ _ (by rw [h8]; exact h), h8]
  rw [show zeroPlane.reverse = zeroPlane by simp [zeroPlane]]
  rfl

theorem reverse_zeroPlane : zeroPlane.reverse = zeroPlane := by simp [zeroPlane]

theorem pieceLayer_ne6 (pt : PieceType) : pieceLayer pt ≠ 6 := by
  cases pt <;> decide

theorem pieceToIndexCompact_ne6 (ch : Char) (p : ℕ)
    (h : pieceToIndexCompact ch = some p) : p ≠ 6 := by
  rw [pieceToIndexCompact] at h
  split_ifs at h <;> injection h with h <;> omega

theorem boardFold_props (ps : List (Fin 64 × ChessPiece)) :
    ∀ t : Tensor,
      getPlane (ps.foldl (fun t sp =>
        set3 t (pieceLayer sp.2.pieceType) ((sp.1 : ℕ) / 8) ((sp.1 : ℕ) % 8)
          (if sp.2.color = PieceColor.white then 1 else -1)) t) 6 = getPlane t 6 ∧
      (ps.foldl (fun t sp =>
        set3 t (pieceLayer sp.2.pieceType) ((sp.1 : ℕ) / 8) ((sp.1 : ℕ) % 8)
          (if sp.2.color = PieceColor.white then 1 else -1)) t).length = t.length := by
  induction ps with
  | nil => intro t; exact ⟨rfl, rfl⟩
  | cons sp rest ih =>
    intro t
    obtain ⟨h6, hlen⟩ := ih (set3 t (pieceLayer sp.2.pieceType) ((sp.1 : ℕ) / 8)
      ((sp.1 : ℕ) % 8) (if sp.2.color = PieceColor.white then 1 else -1))
    refine ⟨?_, ?_⟩
    · rw [List.foldl_cons, h6, getPlane_set3_ne _ _ _ _ _ _ (pieceLayer_ne6 _)]
    · rw [List.foldl_cons, hlen, length_set3]

theorem rankLoopCompact_plane6 (chars : List Char) :
    ∀ (t : Tensor) (row col : ℕ) (t' : Tensor) (col' : ℕ),
      rankLoopCompact t row col chars = .ok (t', col') →
      getPlane t' 6 = getPlane t 6 ∧ t'.length = t.length := by
  induction chars with
  | nil =>
    intro t row col t' col' h
    simp [rankLoopCompact] at h
    rw [← h.1]
    exact ⟨rfl, rfl⟩
  | cons ch rest ih =>
    intro t row col t' col' h
    rw [rankLoopCompact] at h
    by_cases hd : ch.isDigit
    · rw [if_pos hd] at h
      exact ih _ _ _ _ _ h
    · rw [if_neg hd] at h
      split at h
      · rename_i plane hp
        by_cases hrc : row < 8 ∧ col < 8
        · rw [if_pos hrc] at h
          obtain ⟨h6, hlen⟩ := ih _ _ _ _ _ h
          rw [h6, hlen, getPlane_set3_ne _ _ _ _ _ _ (pieceToIndexCompact_ne6 ch plane hp),
            length_set3]
          exact ⟨rfl, rfl⟩
        · rw [if_neg hrc] at h
          cases h
      · exact ih _ _ _ _ _ h

theorem placeRanksCompact_plane6 (ranks : List (List Char)) :
    ∀ (t : Tensor) (row : ℕ) (t' : Tensor),
      placeRanksCompact t row ranks = .ok t' →
      getPlane t' 6 = getPlane t 6 ∧ t'.length = t.length := by
  induction ranks with
  | nil =>
    intro t row t' h
    simp [placeRanksCompact] at h
    rw [← h]
    exact ⟨rfl, rfl⟩
  | cons r rs ih =>
    intro t row t' h
    rw [placeRanksCompact] at h
    split at h
    · rename_i t1 col1 heq
      obtain ⟨g6, glen⟩ := rankLoopCompact_plane6 r t row 0 t1 col1 heq
      obtain ⟨h6, hlen⟩ := ih t1 (row + 1) t' h
      exact ⟨by rw [h6, g6], by rw [hlen, glen]⟩
    · cases h

theorem epApplyCompact_wf (t : Tensor) (c0 c1 : Char) (rest : List Char)
    (hdig : c1.isDigit = true) (ha : 97 ≤ c0.toNat) (hh : c0.toNat ≤ 104)
    (h1 : 49 ≤ c1.toNat) (h8 : c1.toNat ≤ 56) :
    epApplyCompact t (c0 :: c1 :: rest) =
      .ok (set3 t 6 (digitVal c1 - 1) (c0.toNat - 'a'.toNat) (-1)) := by
  have hd : digitVal c1 = c1.toNat - 48 := rfl
  have haN : 'a'.toNat = 97 := rfl
  have e1 : npIdx ((digitVal c1 : ℤ) - 1) 8 = .ok (digitVal c1 - 1) := by
    rw [npIdx, if_pos]
    · congr 1
      omega
    · constructor <;> omega
  have e2 : npIdx ((c0.toNat : ℤ) - ('a'.toNat : ℤ)) 8 = .ok (c0.toNat - 'a'.toNat) := by
    rw [npIdx, if_pos]
    · congr 1
      omega
    · constructor <;> omega
  rw [epApplyCompact.eq_def, if_neg (by simp)]
  dsimp only
  rw [if_pos hdig, e1, e2]

/-- C5 amended: for both 7-plane encoders, plane 6 is all-zero iff no
en-passant target exists, and when one exists plane 6 is the zero plane
with exactly one cell set to −1.  For the board-based encoder that cell is
the target square under the same rank/file transform applied to the piece
planes; for the FEN-based compact encoder the rank index is
`int(ep[1]) − 1` (counted from rank 1 upward) before the final perspective
flip, which is the rank-mirror of the piece-plane indexing.  The final
conjunct shows the marked plane is never all-zero. -/
theorem ep_plane_spec :
    (∀ b : Board,
      (b.ep_square = none → getPlane (board_to_np_array b) 6 = zeroPlane) ∧
      (∀ sq : Fin 64, b.ep_square = some sq →
        getPlane (board_to_np_array b) 6 =
          set2 zeroPlane
            (if b.turn = PieceColor.black then (sq : ℕ) / 8 else 7 - (sq : ℕ) / 8)
            ((sq : ℕ) % 8) (-1))) ∧
    (∀ (ranks : List (List Char)) (turn : List Char) (t : Tensor),
      compactCore ranks turn ['-'] = .ok t → getPlane t 6 = zeroPlane) ∧
    (∀ (ranks : List (List Char)) (turn : List Char) (c0 c1 : Char) (rest : List Char)
      (t : Tensor),
      c1.isDigit = true → 97 ≤ c0.toNat → c0.toNat ≤ 104 → 49 ≤ c1.toNat → c1.toNat ≤ 56 →
      compactCore ranks turn (c0 :: c1 :: rest) = .ok t →
      getPlane t 6 =
        set2 zeroPlane
          (if turn = ['b'] then 7 - (digitVal c1 - 1) else digitVal c1 - 1)
          (c0.toNat - 'a'.toNat) (-1)) ∧
    (∀ r c : ℕ, r < 8 → c < 8 → set2 zeroPlane r c (-1) ≠ zeroPlane) := by
  refine ⟨?_, ?_, ?_, ?_⟩
  · intro b
    obtain ⟨hf6, hflen⟩ := boardFold_props b.pieces zeros3
    constructor
    · intro hep
      have hraw : getPlane (boardRaw b) 6 = zeroPlane := by
        simp only [boardRaw, hep]
        rw [hf6]
        rfl
      cases hturn : b.turn
      · simp only [board_to_np_array, hturn, if_neg (by decide :
          ¬ PieceColor.white = PieceColor.black)]
        rw [getPlane_flipRanks, hraw, reverse_zeroPlane]
      · simp only [board_to_np_array, hturn, if_true]
        rw [negatePieces, getPlane_negFirst_ge 6 _ 6 (le_refl 6),
          getPlane_flipRanks, getPlane_flipRanks, hraw, reverse_zeroPlane,
          reverse_zeroPlane]
    · intro sq hep
      have hsq : (sq : ℕ) < 64 := sq.isLt
      have hdiv : (sq : ℕ) / 8 < 8 := by omega
      have hraw : getPlane (boardRaw b) 6 =
          set2 zeroPlane ((sq : ℕ) / 8) ((sq : ℕ) % 8) (-1) := by
        simp only [boardRaw, hep]
        rw [getPlane_set3_self _ _ _ _ _ (by rw [hflen]; decide), hf6]
        rfl
      cases hturn : b.turn
      · simp only [board_to_np_array, hturn, if_neg (by decide :
          ¬ PieceColor.white = PieceColor.black)]
        rw [getPlane_flipRanks, hraw, reverse_set2_zeroPlane _ _ _ hdiv]
      · simp only [board_to_np_array, hturn, if_true]
        rw [negatePieces, getPlane_negFirst_ge 6 _ 6 (le_refl 6),
          getPlane_flipRanks, getPlane_flipRanks, hraw,
          reverse_set2_zeroPlane _ _ _ hdiv, reverse_set2_zeroPlane _ _ _ (by omega)]
        congr 1
        omega
  · intro ranks turn t h
    rw [compactCore] at h
    split at h
    · cases h
    · rename_i a hpl
      split at h
      · cases h
      · rename_i a2 hep
        obtain ⟨hp6, hplen⟩ := placeRanksCompact_plane6 ranks zeros3 0 a hpl
        rw [epApplyCompact.eq_def, if_pos rfl] at hep
        injection hep with hep
        have ha6 : getPlane a2 6 = zeroPlane := by
          rw [← hep, hp6]
          rfl
        split at h <;> injection h with h <;> rw [← h]
        · rw [negatePieces, getPlane_negFirst_ge 6 _ 6 (le_refl 6),
            getPlane_flipRanks, ha6, reverse_zeroPlane]
        · exact ha6
  · intro ranks turn c0 c1 rest t hdig ha hh h1 h8 h
    have hdv : 1 ≤ digitVal c1 ∧ digitVal c1 ≤ 8 := by
      have hd : digitVal c1 = c1.toNat - 48 := rfl
      omega
    rw [compactCore] at h
    split at h
    · cases h
    · rename_i a hpl
      split at h
      · cases h
      · rename_i a2 hep
        obtain ⟨hp6, hplen⟩ := placeRanksCompact_plane6 ranks zeros3 0 a hpl
        rw [epApplyCompact_wf a c0 c1 rest hdig ha hh h1 h8] at hep
        injection hep with hep
        have ha6 : getPlane a2 6 =
            set2 zeroPlane (digitVal c1 - 1) (c0.toNat - 'a'.toNat) (-1) := by
          rw [← hep, getPlane_set3_self _ _ _ _ _ (by rw [hplen]; decide), hp6]
          rfl
        split at h <;> injection h with h <;> rw [← h]
        · rename_i hturn
          rw [negatePieces, getPlane_negFirst_ge 6 _ 6 (le_refl 6),
            getPlane_flipRanks, ha6, reverse_set2_zeroPlane _ _ _ (by omega),
            if_pos hturn]
        · rename_i hturn
          rw [ha6, if_neg hturn]
  · intro r c hr hc
    interval_cases r <;> interval_cases c <;> decide

/-- Witness for `ep_plane_spec` at concrete inputs: an empty board with no
en-passant target, the FEN fields (`8`, `w`, `e3`), and the cell (2, 4). -/
theorem ep_plane_spec_witness :
    getPlane (board_to_np_array ⟨[], .white, none⟩) 6 = zeroPlane ∧
    compactCore [['8']] ['w'] ['e', '3'] = .ok (set3 zeros3 6 2 4 (-1)) ∧
    getPlane (set3 zeros3 6 2 4 (-1)) 6 =
      set2 zeroPlane
        (if (['w'] : List Char) = ['b'] then 7 - (digitVal '3' - 1) else digitVal '3' - 1)
        ('e'.toNat - 'a'.toNat) (-1) ∧
    set2 zeroPlane 2 4 (-1) ≠ zeroPlane :=
  ⟨(ep_plane_spec.1 ⟨[], .white, none⟩).1 rfl,
    by decide,
    ep_plane_spec.2.2.1 [['8']] ['w'] 'e' '3' [] (set3 zeros3 6 2 4 (-1))
      (by decide) (by decide) (by decide) (by decide) (by decide) (by decide),
    ep_plane_spec.2.2.2 2 4 (by decide) (by decide)⟩

/-! ### Claim C7, amended theorem -/

theorem gtdLoop_spec {M : Type} (push : Board → M → Board) (total : ℕ) (w : String) :
    ∀ (ms : List M) (b : Board) (i : ℕ),
      (gtdLoop push total w b i ms).length = ms.length ∧
      ∀ k : ℕ, k < ms.length →
        ((gtdLoop push total w b i ms).getD k default).1 =
          board_to_np_array ((ms.take (k + 1)).foldl push b) := by
  intro ms
  induction ms with
  | nil =>
    intro b i
    exact ⟨rfl, by intro k hk; simp at hk⟩
  | cons m ms ih =>
    intro b i
    constructor
    · simpa [gtdLoop] using (ih (push b m) (i + 1)).1
    · intro k hk
      cases k with
      | zero => simp [gtdLoop]
      | succ k =>
        have hrec := (ih (push b m) (i + 1)).2 k (by simpa using hk)
        simpa [gtdLoop] using hrec

/-- C7 amended: the training-pair generator returns the empty sequence iff
the outcome is a draw/unknown OR the game has no mainline moves (a decisive
game with zero moves also yields the empty sequence); when a winner exists
it returns one pair per move in move order, the i-th pair's tensor encoding
the position reached after applying the first i moves. -/
theorem generate_training_data_spec {M : Type} (push : Board → M → Board)
    (game : GameRec M) :
    (generate_training_data push game = [] ↔
      winnerOf game.result = none ∨ game.moves = []) ∧
    (∀ w : String, winnerOf game.result = some w →
      (generate_training_data push game).length = game.moves.length ∧
      ∀ i : ℕ, i < game.moves.length →
        ((generate_training_data push game).getD i default).1 =
          board_to_np_array ((game.moves.take (i + 1)).foldl push game.start)) := by
  constructor
  · constructor
    · intro h
      rcases hw : winnerOf game.result with _ | w
      · exact Or.inl rfl
      · right
        simp only [generate_training_data, hw] at h
        have hlen := (gtdLoop_spec push game.moves.length w game.moves game.start 1).1
        rw [h] at hlen
        exact List.eq_nil_of_length_eq_zero hlen.symm
    · intro h
      rcases h with h | h
      · simp only [generate_training_data, h]
      · rcases hw : winnerOf game.result with _ | w
        · simp only [generate_training_data, hw]
        · simp only [generate_training_data, hw, h, gtdLoop]
  · intro w hw
    simp only [generate_training_data, hw]
    exact ⟨(gtdLoop_spec push game.moves.length w game.moves game.start 1).1,
      (gtdLoop_spec push game.moves.length w game.moves game.start 1).2⟩

/-- Witness for `generate_training_data_spec`: a one-move game with result
`1-0` produces exactly one pair. -/
theorem generate_training_data_spec_witness :
    winnerOf (some "1-0") = some "white" ∧
    (generate_training_data (M := Board) (fun _ m => m)
        ⟨some "1-0", ⟨[], .white, none⟩, [⟨[], .black, none⟩]⟩).length = 1 :=
  ⟨by decide,
    ((generate_training_data_spec (M := Board) (fun _ m => m)
        ⟨some "1-0", ⟨[], .white, none⟩, [⟨[], .black, none⟩]⟩).2 "white" (by decide)).1⟩

/-! ### Claim C10 -/

theorem getItem_inv (store : List Tensor) (data : List PositionDataRef) (idx : ℕ)
    (store' : List Tensor) (a : ℕ) (e : ℚ)
    (h : ChessDataset.getItem store data idx = some (store', a, e)) :
    ∃ pd t, data[idx]? = some pd ∧ store[pd.addr]? = some t ∧
      store' = store ++ [t] ∧ a = store.length ∧ e = pd.evaluation := by
  rw [ChessDataset.getItem] at h
  split at h
  · cases h
  · rename_i pd hpd
    split at h
    · cases h
    · rename_i t ht
      simp only [Option.some.injEq, Prod.mk.injEq] at h
      exact ⟨pd, t, hpd, ht, h.1.symm, h.2.1.symm, h.2.2.symm⟩

theorem runReads_frame (data : List PositionDataRef) (idxs : List ℕ) :
    ∀ store : List Tensor, (∀ pd ∈ data, pd.addr < store.length) →
      ∀ pd ∈ data, (runReads data store idxs)[pd.addr]? = store[pd.addr]? := by
  induction idxs with
  | nil => intro store _ pd _; rfl
  | cons i is ih =>
    intro store wf pd hpd
    rw [runReads]
    rcases hg : ChessDataset.getItem store data i with _ | ⟨store', a, e⟩
    · exact ih store wf pd hpd
    · obtain ⟨pd0, t0, _, _, hs, _, _⟩ := getItem_inv store data i store' a e hg
      have wf' : ∀ q ∈ data, q.addr < store'.length := by
        intro q hq
        rw [hs, List.length_append]
        exact Nat.lt_of_lt_of_le (wf q hq) (Nat.le_add_right _ _)
      rw [ih store' wf' pd hpd, hs,
        List.getElem?_append_left (wf pd hpd)]

/-- C10: `ChessDataset.__getitem__` returns a fresh copy of the stored
tensor: reads only look up and copy, the copy's address is outside the
dataset, so neither any sequence of reads nor any caller mutation of a
returned tensor changes the tensors, evaluations, or storage order of the
stored pairs. -/
theorem ChessDataset_getItem_frame (store : List Tensor) (data : List PositionDataRef)
    (idx : ℕ) (store' : List Tensor) (a : ℕ) (e : ℚ)
    (wf : ∀ pd ∈ data, pd.addr < store.length)
    (h : ChessDataset.getItem store data idx = some (store', a, e)) :
    (∀ pd ∈ data, store'[pd.addr]? = store[pd.addr]?) ∧
    store.length ≤ a ∧
    (∀ t' : Tensor, ∀ pd ∈ data, (store'.set a t')[pd.addr]? = store[pd.addr]?) ∧
    (∃ pd, data[idx]? = some pd ∧ store'[a]? = store[pd.addr]? ∧ e = pd.evaluation) ∧
    (∀ idxs : List ℕ, ∀ pd ∈ data, (runReads data store idxs)[pd.addr]? = store[pd.addr]?) := by
  obtain ⟨pd0, t0, hpd0, ht0, hs, ha, he⟩ := getItem_inv store data idx store' a e h
  have hpres : ∀ pd ∈ data, store'[pd.addr]? = store[pd.addr]? := by
    intro pd hpd
    rw [hs, List.getElem?_append_left (wf pd hpd)]
  refine ⟨hpres, by omega, ?_, ?_, fun idxs => runReads_frame data idxs store wf⟩
  · intro t' pd hpd
    have hlt := wf pd hpd
    rw [List.getElem?_set_ne (by omega : a ≠ pd.addr), hpres pd hpd]
  · refine ⟨pd0, hpd0, ?_, he⟩
    rw [hs, ha, ht0]
    rw [List.getElem?_append_right (le_refl _)]
    simp

/-- Witness for `ChessDataset_getItem_frame`: a one-pair dataset over a
one-tensor store; the read appends a copy and a mutation of the copy does
not change the stored cell. -/
theorem ChessDataset_getItem_frame_witness :
    ChessDataset.getItem [zeros3] [⟨0, 1⟩] 0 = some ([zeros3, zeros3], 1, 1) ∧
    (([zeros3, zeros3] : List Tensor).set 1 [])[(0 : ℕ)]? =
      ([zeros3] : List Tensor)[(0 : ℕ)]? :=
  ⟨by rfl,
    (ChessDataset_getItem_frame [zeros3] [⟨0, 1⟩] 0 [zeros3, zeros3] 1 1
        (by intro pd hpd; rw [List.eq_of_mem_singleton hpd]; decide)
        (by rfl)).2.2.1 [] ⟨0, 1⟩ (List.mem_singleton_self _)⟩
